import Mathlib

/-!
Shallow embedding of the core of `commits-of-interest`:
the commit/diff data model, the PR-grouping entry-list builder
(`crates/core/src/entries.rs`), and the interactive navigation state machine
(`crates/tui/src/lib.rs` and `crates/tui/src/event.rs`).

Rust `usize` indices are modelled as `Nat`; vector indexing `v[i]` is
modelled as `List.getD i default` (every index the embedded code produces is
in range, which the in-range theorems below establish).  Fallible external
operations (repository access, the filesystem) are modelled by explicit
parameters and an explicit filesystem state.
-/

namespace CommitsOfInterest

/-- A single diff line: one-character origin tag plus content
(`crates/core/src/git.rs`, `DiffLine`). -/
structure DiffLine where
  origin : Char
  content : String
deriving DecidableEq

/-- A file-level diff: repository-relative path plus its diff lines
(`crates/core/src/git.rs`, `FileDiff`).  Paths are modelled as strings. -/
structure FileDiff where
  path : String
  lines : List DiffLine
deriving DecidableEq

/-- A commit record (`crates/core/src/git.rs`, `CommitInfo`). -/
structure CommitInfo where
  short_id : String
  oid : String
  message : String
  pr : Option Nat
  file_diffs : List FileDiff
deriving DecidableEq

/-- Default commit used as the `List.getD` fallback for `commits[i]`. -/
def defCommit : CommitInfo :=
  { short_id := "", oid := "", message := "", pr := none, file_diffs := [] }

/-- A display entry (`crates/core/src/entries.rs`, `ListEntry`). -/
inductive ListEntry where
  | Commit (commit_idx : Nat) ( pr_label : Option String) (indent : Nat)
  | Path (commit_idx : Nat) (file_idx : Nat) (indent : Nat)
deriving DecidableEq

/-- Default entry used as the `List.getD` fallback for `entries[i]`. -/
def defEntry : ListEntry := ListEntry.Commit 0 none 0

/-- Whether an entry is a `Path` entry (`matches!(e, ListEntry::Path .. )`). -/
def isPathB : ListEntry → Bool
  | ListEntry.Path _ _ _ => true
  | ListEntry.Commit _ _ _ => false

/-- Whether an entry is a `Commit` entry. -/
def isCommitB : ListEntry → Bool
  | ListEntry.Commit _ _ _ => true
  | ListEntry.Path _ _ _ => false

/-- The indent field of an entry. -/
def entryIndent : ListEntry → Nat
  | ListEntry.Commit _ _ ind => ind
  | ListEntry.Path _ _ ind => ind

/-- The commit index of a `Commit` entry, `none` for a `Path` entry.
Used to read off the commit rows of an entry list in order. -/
def commitIdxOf? : ListEntry → Option Nat
  | ListEntry.Commit i _ _ => some i
  | ListEntry.Path _ _ _ => none

/-- The PR label of a commit: `"#<number>"` if it has an associated PR,
else the literal `"??"` (`entries_from_commits`, label computation). -/
def labelOf (c : CommitInfo) : String :=
  match c.pr with
  | some n => "#" ++ toString n
  | none => "??"

/-- One step of the grouping loop of `entries_from_commits`: push
`idx` onto the first group whose label equals `label`, or append a new
group `(label, [idx])` if none matches. -/
def insertCommit : List (String × List Nat) → String → Nat → List (String × List Nat)
  | [], label, idx => [(label, [idx])]
  | g :: gs, label, idx =>
    if g.1 = label then (g.1, g.2 ++ [idx]) :: gs
    else g :: insertCommit gs label idx

/-- The grouping loop of `entries_from_commits`, with the running commit
index `i` and accumulated groups `gs` explicit. -/
def prGroupsFrom : List CommitInfo → Nat → List (String × List Nat) → List (String × List Nat)
  | [], _, gs => gs
  | c :: cs, i, gs => prGroupsFrom cs (i + 1) (insertCommit gs (labelOf c) i)

/-- Group commits by PR label, preserving first-appearance order
(`entries_from_commits`, first loop). -/
def prGroups (commits : List CommitInfo) : List (String × List Nat) :=
  prGroupsFrom commits 0 []

/-- The global indent: maximum over all group labels of label length plus 1
(the space after the label), 0 when there are no groups
(`.max().unwrap_or(0)`; for `Nat`, folding `max` with base 0 is the same). -/
def indentOfGroups (gs : List (String × List Nat)) : Nat :=
  (gs.map (fun g => g.1.length + 1)).foldr Nat.max 0

/-- The `Path` entries of one commit, one per file diff, in file order
(`for file_idx in 0..commits[commit_idx].file_diffs.len()`). -/
def pathEntries (commits : List CommitInfo) (ind : Nat) (idx : Nat) : List ListEntry :=
  (List.range (commits.getD idx defCommit).file_diffs.length).map
    (fun file_idx => ListEntry.Path idx file_idx ind)

/-- The entries of one group: the enumerate loop gives the label only to the
first commit of the group (`i == 0`); every commit row is immediately
followed by its path rows. -/
def groupEntries (commits : List CommitInfo) (ind : Nat) (label : String) :
    List Nat → List ListEntry
  | [] => []
  | idx :: rest =>
    (ListEntry.Commit idx (some label) ind :: pathEntries commits ind idx)
      ++ rest.flatMap (fun j => ListEntry.Commit j none ind :: pathEntries commits ind j)

/-- `entries_from_commits` (`crates/core/src/entries.rs`): group commits by
PR label, compute the global indent, and emit the flat entry list group by
group. -/
def entries_from_commits (commits : List CommitInfo) : List ListEntry :=
  (prGroups commits).flatMap
    (fun g => groupEntries commits (indentOfGroups (prGroups commits)) g.1 g.2)

/-- The position scan of `first_entry` (`iter().position(...)`), carrying the
running index. -/
def first_entryFrom : List ListEntry → Nat → Option Nat
  | [], _ => none
  | e :: es, i => if isPathB e then some i else first_entryFrom es (i + 1)

/-- `first_entry`: index of the first `Path` entry, if any. -/
def first_entry (entries : List ListEntry) : Option Nat :=
  first_entryFrom entries 0

/-- One changelog bullet line (`writeln!` in `format_proposed_changelog`). -/
def changelogLine (c : CommitInfo) (owner name : String) : String :=
  "- " ++ c.message ++ " [" ++ c.short_id ++ "](https://github.com/" ++ owner
    ++ "/" ++ name ++ "/commit/" ++ c.oid ++ ")\n"

/-- `format_proposed_changelog`: fold over the entry list, appending one
bullet line per `Commit` entry and skipping `Path` entries. -/
def format_proposed_changelog (entries : List ListEntry) (commits : List CommitInfo)
    (owner name : String) : String :=
  entries.foldl
    (fun content e =>
      match e with
      | ListEntry.Commit commit_idx _ _ =>
        content ++ changelogLine (commits.getD commit_idx defCommit) owner name
      | ListEntry.Path _ _ _ => content)
    ""

/-- Pane focus (`crates/tui/src/lib.rs`, `Pane`). -/
inductive Pane where
  | Left
  | Right
deriving DecidableEq

/-- Input mode (`crates/tui/src/lib.rs`, `InputMode`). -/
inductive InputMode where
  | Normal
  | AddComponent
deriving DecidableEq

/-- The application state (`crates/tui/src/lib.rs`, `App`).  The rendered
`items` field is a pure function of `entries` and `commits` (`build_items`)
and carries no independent state, so it is not repeated here. -/
structure App where
  commits : List CommitInfo
  entries : List ListEntry
  focus : Pane
  offset : Nat
  selected : Nat
  diff_scroll : Nat
  should_quit : Bool
  save_proposed_changelog : Bool
  input_mode : InputMode
  input_buffer : String
  revision : String
deriving DecidableEq

/-- `App::new`: build entries, select the first `Path` entry (0 when none),
zero offsets and flags. -/
def App.new (commits : List CommitInfo) (revision : String) : App :=
  let entries := entries_from_commits commits
  { commits := commits
    entries := entries
    focus := Pane.Left
    offset := 0
    selected := (first_entry entries).getD 0
    diff_scroll := 0
    should_quit := false
    save_proposed_changelog := false
    input_mode := InputMode.Normal
    input_buffer := ""
    revision := revision }

/-- The forward scan of `App::next`: first index `m ≥ k` with `m` in range
holding a `Path` entry. -/
def nextPathFrom (entries : List ListEntry) (k : Nat) : Option Nat :=
  if k < entries.length then
    if isPathB (entries.getD k defEntry) then some k
    else nextPathFrom entries (k + 1)
  else none
termination_by entries.length - k
decreasing_by omega

/-- `App::next`: move the selection to the next `Path` entry and reset the
diff scroll; no-op when there is none. -/
def App.next (a : App) : App :=
  match nextPathFrom a.entries (a.selected + 1) with
  | some j => { a with selected := j, diff_scroll := 0 }
  | none => a

/-- The backward scan of `App::prev`: scanning `s - 1, s - 2, …, 0`, the
first index holding a `Path` entry. -/
def prevPathFrom (entries : List ListEntry) : Nat → Option Nat
  | 0 => none
  | j + 1 => if isPathB (entries.getD j defEntry) then some j else prevPathFrom entries j

/-- `App::prev`: move the selection to the previous `Path` entry, reset the
diff scroll, and when the new selection's immediate predecessor is a
`Commit` entry clamp the viewport offset down to keep that header visible;
no-op when there is no earlier `Path` entry. -/
def App.prev (a : App) : App :=
  match prevPathFrom a.entries a.selected with
  | some j =>
    { a with
      selected := j
      diff_scroll := 0
      offset :=
        if 0 < j ∧ isCommitB (a.entries.getD (j - 1) defEntry) = true then
          min a.offset (j - 1)
        else a.offset }
  | none => a

/-- `App::reload`: the external pipeline (repository traversal, PR lookup)
is modelled by its outcome `newCommits`; `none` covers the early returns
when opening the repository or collecting commits fails, leaving the state
unchanged.  On success all derived state is rebuilt and the viewport and
diff scroll reset. -/
def App.reload (a : App) (newCommits : Option (List CommitInfo)) : App :=
  match newCommits with
  | none => a
  | some commits =>
    let entries := entries_from_commits commits
    { a with
      entries := entries
      commits := commits
      selected := (first_entry entries).getD 0
      offset := 0
      diff_scroll := 0 }

/-- Externally visible side effects of the add-component flow: appending a
component line to the persisted filter file, and triggering a reload. -/
inductive Effect where
  | AppendComponent (component : String)
  | Reload
deriving DecidableEq

/-- Rust's `str::trim`: strip leading and trailing whitespace.  Written over
the character list so that it evaluates by kernel reduction. -/
def trimmed (s : String) : String :=
  String.mk (((s.data.dropWhile Char.isWhitespace).reverse.dropWhile Char.isWhitespace).reverse)

/-- `App::submit_component`: an empty-after-trim buffer is silently dropped
(back to normal mode, buffer cleared, no side effect); otherwise the trimmed
component is appended to persisted storage and a reload runs before the mode
and buffer reset. -/
def App.submit_component (a : App) (reloadOutcome : Option (List CommitInfo)) :
    App × List Effect :=
  if (trimmed a.input_buffer).isEmpty then
    ({ a with input_mode := InputMode.Normal, input_buffer := "" }, [])
  else
    ({ a.reload reloadOutcome with input_mode := InputMode.Normal, input_buffer := "" },
      [Effect.AppendComponent (trimmed a.input_buffer), Effect.Reload])

/-- The key codes reaching `handle_input_key`. -/
inductive KeyCode where
  | Esc
  | Enter
  | Backspace
  | Char (c : Char)
deriving DecidableEq

/-- `handle_input_key` (`crates/tui/src/event.rs`): add-component mode key
handling.  `String.dropRight 1` models `String::pop`. -/
def handle_input_key (key : KeyCode) (a : App) (reloadOutcome : Option (List CommitInfo)) :
    App × List Effect :=
  match key with
  | KeyCode.Esc => ({ a with input_mode := InputMode.Normal, input_buffer := "" }, [])
  | KeyCode.Enter => a.submit_component reloadOutcome
  | KeyCode.Backspace => ({ a with input_buffer := a.input_buffer.dropRight 1 }, [])
  | KeyCode.Char c =>
    if c ≠ '/' ∧ c ≠ '.' then ({ a with input_buffer := a.input_buffer.push c }, [])
    else (a, [])

/-- The filesystem as seen by the changelog writer: named text files. -/
structure FsState where
  files : List (String × String)
deriving DecidableEq

/-- `Path::exists` on the modelled filesystem. -/
def fileExists (fs : FsState) (path : String) : Bool :=
  fs.files.any (fun f => f.1 = path)

/-- `write_proposed_changelog` (`crates/tui/src/lib.rs`): bail when the
target already exists, bail when the repository URL is unknown, otherwise
write the rendered changelog.  The `App` is taken by shared reference in
the source and returned unchanged here to make that explicit. -/
def write_proposed_changelog (a : App) (ownerName : Option (String × String))
    (fs : FsState) : Except String Unit × FsState × App :=
  if fileExists fs "proposed_changelog.md" then
    (Except.error "proposed_changelog.md already exists; not overwriting", fs, a)
  else
    match ownerName with
    | none => (Except.error "could not determine GitHub repository URL", fs, a)
    | some (owner, name) =>
      let content := format_proposed_changelog a.entries a.commits owner name
      (Except.ok (), { files := fs.files ++ [("proposed_changelog.md", content)] }, a)

/-- Spec-side description of the distinct labels in first-appearance order,
carrying the labels already seen. -/
def newLabels : List CommitInfo → List String → List String
  | [], _ => []
  | c :: cs, seen =>
    if labelOf c ∈ seen then newLabels cs seen
    else labelOf c :: newLabels cs (seen ++ [labelOf c])

/-- Spec-side description: the distinct PR labels of a commit sequence, in
first-appearance order. -/
def firstLabels (commits : List CommitInfo) : List String :=
  newLabels commits []

/-- The indices of the commits carrying label `l`, counting from `i`, in
original order. -/
def idxsFrom : List CommitInfo → Nat → String → List Nat
  | [], _, _ => []
  | c :: cs, i, l =>
    if labelOf c = l then i :: idxsFrom cs (i + 1) l else idxsFrom cs (i + 1) l

/-- Spec-side description: the positions of the commits carrying label `l`,
in original (increasing) order. -/
def labelIdxs (commits : List CommitInfo) (l : String) : List Nat :=
  (List.range commits.length).filter (fun i => labelOf (commits.getD i defCommit) = l)

/-- Spec-side description of the global indent: maximum of label length
plus 1 over the distinct labels, 0 when there are none. -/
def specIndent (commits : List CommitInfo) : Nat :=
  ((firstLabels commits).map (fun l => l.length + 1)).foldr Nat.max 0

/-- Spec-side description of the whole entry list: for each distinct label
in first-appearance order, the group of commits carrying it in original
order, the first labelled and the rest not, each followed by its path rows,
all carrying the global indent. -/
def specEntries (commits : List CommitInfo) : List ListEntry :=
  (firstLabels commits).flatMap
    (fun l => groupEntries commits (specIndent commits) l (labelIdxs commits l))

/-- Whether an entry's positions are in range for `commits`. -/
def entryInRangeB (commits : List CommitInfo) : ListEntry → Bool
  | ListEntry.Commit i _ _ => i < commits.length
  | ListEntry.Path i f _ =>
    i < commits.length && f < (commits.getD i defCommit).file_diffs.length

/-- The selection invariant: the selection points at a `Path` entry whenever
the entry list has one, and is 0 when it has none. -/
def selInv (a : App) : Bool :=
  if a.entries.any isPathB then isPathB (a.entries.getD a.selected defEntry)
  else a.selected == 0

/-! Helper lemmas about the scans of `first_entry`, `App::next`, `App::prev`. -/

theorem lt_length_of_isPathB_getD {entries : List ListEntry} {j : Nat}
    (h : isPathB (entries.getD j defEntry) = true) : j < entries.length := by
  by_contra hlt
  push_neg at hlt
  rw [List.getD_eq_default _ _ hlt] at h
  simp [defEntry, isPathB] at h

theorem any_isPathB_of_getD {entries : List ListEntry} {j : Nat}
    (h : isPathB (entries.getD j defEntry) = true) : entries.any isPathB = true := by
  have hj := lt_length_of_isPathB_getD h
  rw [List.any_eq_true]
  refine ⟨entries.getD j defEntry, ?_, h⟩
  rw [List.getD_eq_getElem _ _ hj]
  exact List.getElem_mem hj

theorem nextPathFrom_eq (entries : List ListEntry) (k : Nat) :
    nextPathFrom entries k =
      if k < entries.length then
        if isPathB (entries.getD k defEntry) then some k
        else nextPathFrom entries (k + 1)
      else none := by
  rw [nextPathFrom]

theorem nextPathFrom_some {entries : List ListEntry} {k j : Nat}
    (h : nextPathFrom entries k = some j) :
    k ≤ j ∧ j < entries.length ∧ isPathB (entries.getD j defEntry) = true := by
  have H : ∀ n k j, entries.length - k ≤ n → nextPathFrom entries k = some j →
      k ≤ j ∧ j < entries.length ∧ isPathB (entries.getD j defEntry) = true := by
    intro n
    induction n with
    | zero =>
      intro k j hn h
      rw [nextPathFrom_eq] at h
      have hk : ¬ k < entries.length := by omega
      simp [hk] at h
    | succ n ih =>
      intro k j hn h
      rw [nextPathFrom_eq] at h
      by_cases hk : k < entries.length
      · rw [if_pos hk] at h
        by_cases hp : isPathB (entries.getD k defEntry) = true
        · rw [if_pos hp] at h
          cases h
          exact ⟨Nat.le_refl _, hk, hp⟩
        · rw [if_neg hp] at h
          have := ih (k + 1) j (by omega) h
          exact ⟨by omega, this.2.1, this.2.2⟩
      · rw [if_neg hk] at h
        cases h
  exact H (entries.length - k) k j (Nat.le_refl _) h

theorem nextPathFrom_none_iff (entries : List ListEntry) (k : Nat) :
    nextPathFrom entries k = none ↔
      ∀ m, k ≤ m → m < entries.length → isPathB (entries.getD m defEntry) = false := by
  have H : ∀ n k, entries.length - k ≤ n →
      (nextPathFrom entries k = none ↔
        ∀ m, k ≤ m → m < entries.length → isPathB (entries.getD m defEntry) = false) := by
    intro n
    induction n with
    | zero =>
      intro k hn
      have hk : ¬ k < entries.length := by omega
      rw [nextPathFrom_eq, if_neg hk]
      constructor
      · intro _ m hkm hm
        exact absurd hm (by omega)
      · intro _
        rfl
    | succ n ih =>
      intro k hn
      rw [nextPathFrom_eq]
      by_cases hk : k < entries.length
      · rw [if_pos hk]
        by_cases hp : isPathB (entries.getD k defEntry) = true
        · rw [if_pos hp]
          constructor
          · intro h
            exact absurd h (by simp)
          · intro h
            have := h k (Nat.le_refl _) hk
            rw [hp] at this
            cases this
        · rw [if_neg hp]
          rw [ih (k + 1) (by omega)]
          constructor
          · intro h m hkm hm
            rcases Nat.eq_or_lt_of_le hkm with rfl | hlt
            · exact Bool.eq_false_iff.mpr hp
            · exact h m hlt hm
          · intro h m hkm hm
            exact h m (by omega) hm
      · rw [if_neg hk]
        constructor
        · intro _ m hkm hm
          exact absurd hm (by omega)
        · intro _
          rfl
  exact H (entries.length - k) k (Nat.le_refl _)

theorem prevPathFrom_some {entries : List ListEntry} :
    ∀ {s j : Nat}, prevPathFrom entries s = some j →
      j < s ∧ isPathB (entries.getD j defEntry) = true ∧
        ∀ m, j < m → m < s → isPathB (entries.getD m defEntry) = false := by
  intro s
  induction s with
  | zero =>
    intro j h
    cases h
  | succ s ih =>
    intro j h
    rw [prevPathFrom] at h
    by_cases hp : isPathB (entries.getD s defEntry) = true
    · rw [if_pos hp] at h
      cases h
      refine ⟨Nat.lt_succ_self _, hp, ?_⟩
      intro m hm1 hm2
      omega
    · rw [if_neg hp] at h
      obtain ⟨h1, h2, h3⟩ := ih h
      refine ⟨by omega, h2, ?_⟩
      intro m hm1 hm2
      rcases Nat.lt_succ_iff_lt_or_eq.mp hm2 with hlt | rfl
      · exact h3 m hm1 hlt
      · exact Bool.eq_false_iff.mpr hp

theorem prevPathFrom_none_iff (entries : List ListEntry) :
    ∀ s, prevPathFrom entries s = none ↔
      ∀ m, m < s → isPathB (entries.getD m defEntry) = false := by
  intro s
  induction s with
  | zero =>
    constructor
    · intro _ m hm
      exact absurd hm (by omega)
    · intro _
      rfl
  | succ s ih =>
    rw [prevPathFrom]
    by_cases hp : isPathB (entries.getD s defEntry) = true
    · rw [if_pos hp]
      constructor
      · intro h
        exact absurd h (by simp)
      · intro h
        have := h s (Nat.lt_succ_self _)
        rw [hp] at this
        cases this
    · rw [if_neg hp]
      rw [ih]
      constructor
      · intro h m hm
        rcases Nat.lt_succ_iff_lt_or_eq.mp hm with hlt | rfl
        · exact h m hlt
        · exact Bool.eq_false_iff.mpr hp
      · intro h m hm
        exact h m (by omega)

theorem prevPathFrom_eq_some_of_nearest {entries : List ListEntry} :
    ∀ {s j : Nat}, j < s → isPathB (entries.getD j defEntry) = true →
      (∀ m, j < m → m < s → isPathB (entries.getD m defEntry) = false) →
      prevPathFrom entries s = some j := by
  intro s
  induction s with
  | zero =>
    intro j hj _ _
    exact absurd hj (by omega)
  | succ s ih =>
    intro j hj hp hnear
    rw [prevPathFrom]
    rcases Nat.lt_succ_iff_lt_or_eq.mp hj with hlt | rfl
    · have hs : isPathB (entries.getD s defEntry) = false :=
        hnear s hlt (Nat.lt_succ_self _)
      rw [if_neg (by rw [hs]; simp)]
      exact ih hlt hp (fun m h1 h2 => hnear m h1 (by omega))
    · rw [if_pos hp]

theorem first_entryFrom_cons (e : ListEntry) (es : List ListEntry) (i : Nat) :
    first_entryFrom (e :: es) i =
      if isPathB e then some i else first_entryFrom es (i + 1) :=
  rfl

theorem first_entryFrom_shift (es : List ListEntry) :
    ∀ i, first_entryFrom es i = (first_entryFrom es 0).map (fun k => k + i) := by
  induction es with
  | nil =>
    intro i
    rfl
  | cons e es ih =>
    intro i
    rw [first_entryFrom_cons, first_entryFrom_cons]
    by_cases hp : isPathB e = true
    · rw [if_pos hp, if_pos hp]
      simp
    · rw [if_neg hp, if_neg hp, ih (i + 1), ih 1, Option.map_map]
      rcases first_entryFrom es 0 with _ | k
      · rfl
      · simp only [Option.map_some', Function.comp]
        exact congrArg some (by omega)

theorem first_entryFrom_none_iff (es : List ListEntry) :
    first_entryFrom es 0 = none ↔ es.any isPathB = false := by
  induction es with
  | nil =>
    simp [first_entryFrom]
  | cons e es ih =>
    rw [first_entryFrom_cons, List.any_cons]
    by_cases hp : isPathB e = true
    · rw [if_pos hp, hp]
      simp
    · rw [if_neg hp, first_entryFrom_shift es 1, Bool.not_eq_true] at *
      rw [hp]
      simp only [Bool.false_or]
      rw [← ih]
      rcases h : first_entryFrom es 0 with _ | k <;> simp [h]

theorem first_entryFrom_some {es : List ListEntry} :
    ∀ {j : Nat}, first_entryFrom es 0 = some j →
      j < es.length ∧ isPathB (es.getD j defEntry) = true := by
  induction es with
  | nil =>
    intro j h
    cases h
  | cons e es ih =>
    intro j h
    rw [first_entryFrom_cons] at h
    by_cases hp : isPathB e = true
    · rw [if_pos hp] at h
      cases h
      exact ⟨by simp, by simpa using hp⟩
    · rw [if_neg hp, first_entryFrom_shift es 1] at h
      rcases hfe : first_entryFrom es 0 with _ | k
      · rw [hfe] at h
        cases h
      · rw [hfe] at h
        simp only [Option.map_some'] at h
        cases h
        obtain ⟨h1, h2⟩ := ih hfe
        exact ⟨by simpa using h1, by simpa using h2⟩

theorem first_entry_default_inv (entries : List ListEntry) :
    (entries.any isPathB = true →
      isPathB (entries.getD ((first_entry entries).getD 0) defEntry) = true)
    ∧ (entries.any isPathB = false → (first_entry entries).getD 0 = 0) := by
  constructor
  · intro hany
    rcases h : first_entryFrom entries 0 with _ | j
    · have := (first_entryFrom_none_iff entries).mp h
      rw [hany] at this
      cases this
    · rw [first_entry, h]
      simpa using (first_entryFrom_some h).2
  · intro hany
    rw [first_entry, (first_entryFrom_none_iff entries).mpr hany]
    rfl

theorem selInv_of_first_entry (a : App)
    (hs : a.selected = (first_entry a.entries).getD 0) : selInv a = true := by
  rw [selInv]
  by_cases hany : a.entries.any isPathB = true
  · rw [if_pos hany, hs]
    exact (first_entry_default_inv a.entries).1 hany
  · rw [if_neg hany, hs, (first_entry_default_inv a.entries).2 (Bool.eq_false_iff.mpr hany)]
    rfl

theorem selInv_next (a : App) (h : selInv a = true) : selInv a.next = true := by
  rcases hnp : nextPathFrom a.entries (a.selected + 1) with _ | j
  · have hstep : a.next = a := by
      unfold App.next
      rw [hnp]
    rw [hstep]
    exact h
  · obtain ⟨_, _, h3⟩ := nextPathFrom_some hnp
    have hstep : a.next = { a with selected := j, diff_scroll := 0 } := by
      unfold App.next
      rw [hnp]
    rw [hstep, selInv]
    rw [show ({ a with selected := j, diff_scroll := 0 } : App).entries = a.entries from rfl]
    rw [if_pos (any_isPathB_of_getD h3)]
    exact h3

theorem selInv_prev (a : App) (h : selInv a = true) : selInv a.prev = true := by
  rcases hpp : prevPathFrom a.entries a.selected with _ | j
  · have hstep : a.prev = a := by
      unfold App.prev
      rw [hpp]
    rw [hstep]
    exact h
  · obtain ⟨_, h2, _⟩ := prevPathFrom_some hpp
    have hstep : a.prev =
        { a with
          selected := j
          diff_scroll := 0
          offset :=
            if 0 < j ∧ isCommitB (a.entries.getD (j - 1) defEntry) = true then
              min a.offset (j - 1)
            else a.offset } := by
      unfold App.prev
      rw [hpp]
    rw [hstep, selInv]
    rw [if_pos (any_isPathB_of_getD h2)]
    exact h2

/-- C5: the selection invariant — the selection index points at a `Path`
entry whenever the entry list contains one, and is 0 when it contains none —
is established at construction (`App::new`) and preserved by `next`, `prev`
and `reload`. -/
theorem C5_selection_invariant :
    (∀ (commits : List CommitInfo) (revision : String),
      selInv (App.new commits revision) = true)
    ∧ (∀ a : App, selInv a = true → selInv a.next = true)
    ∧ (∀ a : App, selInv a = true → selInv a.prev = true)
    ∧ (∀ (a : App) (newCommits : Option (List CommitInfo)),
        selInv a = true → selInv (a.reload newCommits) = true) := by
  refine ⟨?_, selInv_next, selInv_prev, ?_⟩
  · intro commits revision
    exact selInv_of_first_entry _ rfl
  · intro a newCommits h
    rcases newCommits with _ | commits
    · exact h
    · exact selInv_of_first_entry _ rfl

/-- Witness for C5 at a concrete state: one commit with one file diff. -/
theorem C5_selection_invariant_witness :
    selInv (App.new [⟨"a", "a", "m", some 1, [⟨"p", []⟩]⟩] "") = true
    ∧ selInv (App.new [⟨"a", "a", "m", some 1, [⟨"p", []⟩]⟩] "").next = true
    ∧ selInv (App.new [⟨"a", "a", "m", some 1, [⟨"p", []⟩]⟩] "").prev = true
    ∧ selInv ((App.new [⟨"a", "a", "m", some 1, [⟨"p", []⟩]⟩] "").reload (some [])) = true :=
  ⟨C5_selection_invariant.1 _ "",
    C5_selection_invariant.2.1 _ (by decide),
    C5_selection_invariant.2.2.1 _ (by decide),
    C5_selection_invariant.2.2.2 _ (some []) (by decide)⟩

/-- C6: at structural boundaries navigation is a no-op — when no `Path`
entry lies after the selection, `next` leaves the whole state unchanged,
and when none lies before it, `prev` does; both hold in particular on an
empty entry list. -/
theorem C6_nav_boundary_noop (a : App) :
    ((∀ m, m < a.entries.length → a.selected < m →
        isPathB (a.entries.getD m defEntry) = false) → a.next = a)
    ∧ (a.selected ≤ a.entries.length →
        (∀ m, m < a.selected → isPathB (a.entries.getD m defEntry) = false) →
        a.prev = a) := by
  constructor
  · intro h
    have hnone : nextPathFrom a.entries (a.selected + 1) = none := by
      rw [nextPathFrom_none_iff]
      intro m h1 h2
      exact h m h2 (by omega)
    unfold App.next
    rw [hnone]
  · intro _ h
    have hnone : prevPathFrom a.entries a.selected = none :=
      (prevPathFrom_none_iff a.entries a.selected).mpr h
    unfold App.prev
    rw [hnone]

/-- Witness for C6: on the empty entry list both `next` and `prev` are
no-ops. -/
theorem C6_nav_boundary_noop_witness :
    (App.new [] "").next = App.new [] "" ∧ (App.new [] "").prev = App.new [] "" :=
  ⟨(C6_nav_boundary_noop (App.new [] "")).1 (by decide),
    (C6_nav_boundary_noop (App.new [] "")).2 (by decide) (by decide)⟩

/-- C7: when `prev` finds a nearest earlier `Path` entry `j`, the selection
moves to `j` and the diff scroll resets to 0; the viewport offset becomes
`min offset (j - 1)` exactly when the immediate predecessor entry is a
`Commit` entry, and is unchanged otherwise. -/
theorem C7_prev_moves (a : App) (j : Nat)
    (hwf : a.selected ≤ a.entries.length)
    (hj : j < a.selected)
    (hpath : isPathB (a.entries.getD j defEntry) = true)
    (hnear : ∀ k, k < a.selected → j < k → isPathB (a.entries.getD k defEntry) = false) :
    a.prev.selected = j ∧ a.prev.diff_scroll = 0 ∧
      a.prev.offset =
        if 0 < j ∧ isCommitB (a.entries.getD (j - 1) defEntry) = true then
          min a.offset (j - 1)
        else a.offset := by
  have hsome : prevPathFrom a.entries a.selected = some j :=
    prevPathFrom_eq_some_of_nearest hj hpath (fun m h1 h2 => hnear m h2 h1)
  have hstep : a.prev =
      { a with
        selected := j
        diff_scroll := 0
        offset :=
          if 0 < j ∧ isCommitB (a.entries.getD (j - 1) defEntry) = true then
            min a.offset (j - 1)
          else a.offset } := by
    unfold App.prev
    rw [hsome]
  rw [hstep]
  exact ⟨rfl, rfl, rfl⟩

/-- Witness for C7: one commit with two files, selection on the second
`Path` entry, offset 5; `prev` moves to entry 1, whose predecessor is the
commit header at 0, so the offset clamps to 0. -/
theorem C7_prev_moves_witness :
    ({ App.new [⟨"a", "a", "m", some 1, [⟨"p", []⟩, ⟨"q", []⟩]⟩] "" with
        selected := 2, offset := 5 } : App).prev.selected = 1
    ∧ ({ App.new [⟨"a", "a", "m", some 1, [⟨"p", []⟩, ⟨"q", []⟩]⟩] "" with
        selected := 2, offset := 5 } : App).prev.diff_scroll = 0
    ∧ ({ App.new [⟨"a", "a", "m", some 1, [⟨"p", []⟩, ⟨"q", []⟩]⟩] "" with
        selected := 2, offset := 5 } : App).prev.offset =
        if 0 < 1 ∧ isCommitB
            (({ App.new [⟨"a", "a", "m", some 1, [⟨"p", []⟩, ⟨"q", []⟩]⟩] "" with
              selected := 2, offset := 5 } : App).entries.getD 0 defEntry) = true then
          min 5 0
        else 5 :=
  C7_prev_moves _ 1 (by decide) (by decide) (by decide) (by decide)

/-- C10: `next` changes at most the selection and the diff scroll, never the
viewport offset; `prev` changes at most the selection, the diff scroll and
the viewport offset, never increasing the offset; neither touches the
commits, the entry list, the focus, the input mode, or any other field. -/
theorem C10_nav_frame (a : App) :
    (a.next.commits = a.commits ∧ a.next.entries = a.entries
      ∧ a.next.offset = a.offset ∧ a.next.focus = a.focus
      ∧ a.next.input_mode = a.input_mode ∧ a.next.input_buffer = a.input_buffer
      ∧ a.next.should_quit = a.should_quit
      ∧ a.next.save_proposed_changelog = a.save_proposed_changelog
      ∧ a.next.revision = a.revision)
    ∧ (a.prev.commits = a.commits ∧ a.prev.entries = a.entries
      ∧ a.prev.offset ≤ a.offset ∧ a.prev.focus = a.focus
      ∧ a.prev.input_mode = a.input_mode ∧ a.prev.input_buffer = a.input_buffer
      ∧ a.prev.should_quit = a.should_quit
      ∧ a.prev.save_proposed_changelog = a.save_proposed_changelog
      ∧ a.prev.revision = a.revision) := by
  constructor
  · rcases hnp : nextPathFrom a.entries (a.selected + 1) with _ | j
    · have hstep : a.next = a := by
        unfold App.next
        rw [hnp]
      rw [hstep]
      exact ⟨rfl, rfl, rfl, rfl, rfl, rfl, rfl, rfl, rfl⟩
    · have hstep : a.next = { a with selected := j, diff_scroll := 0 } := by
        unfold App.next
        rw [hnp]
      rw [hstep]
      exact ⟨rfl, rfl, rfl, rfl, rfl, rfl, rfl, rfl, rfl⟩
  · rcases hpp : prevPathFrom a.entries a.selected with _ | j
    · have hstep : a.prev = a := by
        unfold App.prev
        rw [hpp]
      rw [hstep]
      exact ⟨rfl, rfl, Nat.le_refl _, rfl, rfl, rfl, rfl, rfl, rfl⟩
    · have hstep : a.prev =
          { a with
            selected := j
            diff_scroll := 0
            offset :=
              if 0 < j ∧ isCommitB (a.entries.getD (j - 1) defEntry) = true then
                min a.offset (j - 1)
              else a.offset } := by
        unfold App.prev
        rw [hpp]
      rw [hstep]
      refine ⟨rfl, rfl, ?_, rfl, rfl, rfl, rfl, rfl, rfl⟩
      show (if 0 < j ∧ isCommitB (a.entries.getD (j - 1) defEntry) = true then
          min a.offset (j - 1) else a.offset) ≤ a.offset
      split
      · exact Nat.min_le_left _ _
      · exact Nat.le_refl _

/-- C8: writing the proposed changelog when `proposed_changelog.md` already
exists fails with an error, leaves the filesystem unchanged, and leaves the
application state unchanged. -/
theorem C8_write_fails_when_exists (a : App) (ownerName : Option (String × String))
    (fs : FsState) (h : fileExists fs "proposed_changelog.md" = true) :
    write_proposed_changelog a ownerName fs
      = (Except.error "proposed_changelog.md already exists; not overwriting", fs, a) := by
  unfold write_proposed_changelog
  rw [if_pos h]

/-- Witness for C8: a filesystem already holding `proposed_changelog.md`. -/
theorem C8_write_fails_when_exists_witness :
    write_proposed_changelog (App.new [] "") none ⟨[("proposed_changelog.md", "x")]⟩
      = (Except.error "proposed_changelog.md already exists; not overwriting",
          ⟨[("proposed_changelog.md", "x")]⟩, App.new [] "") :=
  C8_write_fails_when_exists (App.new [] "") none ⟨[("proposed_changelog.md", "x")]⟩
    (by decide)

/-- C9: in add-component mode, Enter with a buffer that trims to empty is
silently ignored — no append, no reload, back to normal mode with an empty
buffer — and Escape likewise discards the buffer with no side effect. -/
theorem C9_empty_component_ignored (a : App) (reloadOutcome : Option (List CommitInfo))
    (hmode : a.input_mode = InputMode.AddComponent) :
    ((trimmed a.input_buffer).isEmpty = true →
      handle_input_key KeyCode.Enter a reloadOutcome
        = ({ a with input_mode := InputMode.Normal, input_buffer := "" }, []))
    ∧ handle_input_key KeyCode.Esc a reloadOutcome
        = ({ a with input_mode := InputMode.Normal, input_buffer := "" }, []) := by
  constructor
  · intro hempty
    show a.submit_component reloadOutcome = _
    unfold App.submit_component
    rw [if_pos hempty]
  · rfl

/-- Witness for C9: a buffer of two spaces in add-component mode. -/
theorem C9_empty_component_ignored_witness :
    handle_input_key KeyCode.Enter
        ({ App.new [] "" with input_mode := InputMode.AddComponent, input_buffer := "  " })
        none
      = ({ App.new [] "" with input_mode := InputMode.Normal, input_buffer := "" }, [])
    ∧ handle_input_key KeyCode.Esc
        ({ App.new [] "" with input_mode := InputMode.AddComponent, input_buffer := "  " })
        none
      = ({ App.new [] "" with input_mode := InputMode.Normal, input_buffer := "" }, []) :=
  ⟨(C9_empty_component_ignored _ none rfl).1 (by decide),
    (C9_empty_component_ignored _ none rfl).2⟩

/-! Characterization of the first-appearance grouping fold. -/

theorem insertCommit_of_not_mem {gs : List (String × List Nat)} {label : String}
    (h : label ∉ gs.map Prod.fst) (idx : Nat) :
    insertCommit gs label idx = gs ++ [(label, [idx])] := by
  induction gs with
  | nil => rfl
  | cons g gs ih =>
    simp only [List.map_cons, List.mem_cons, not_or] at h
    simp only [insertCommit]
    rw [if_neg (fun hh => h.1 hh.symm), ih h.2]
    rfl

theorem insertCommit_of_mem {gs : List (String × List Nat)} {label : String}
    (hnd : (gs.map Prod.fst).Nodup) (h : label ∈ gs.map Prod.fst) (idx : Nat) :
    insertCommit gs label idx
      = gs.map (fun g => if g.1 = label then (g.1, g.2 ++ [idx]) else g) := by
  induction gs with
  | nil => cases h
  | cons g gs ih =>
    simp only [List.map_cons, List.mem_cons] at h
    simp only [List.map_cons, List.nodup_cons] at hnd
    by_cases hg : g.1 = label
    · simp only [insertCommit, List.map_cons, if_pos hg]
      congr 1
      have hrest : ∀ g' ∈ gs, (if g'.1 = label then (g'.1, g'.2 ++ [idx]) else g') = g' := by
        intro g' hg'
        rw [if_neg]
        intro hh
        apply hnd.1
        rw [hg, ← hh]
        exact List.mem_map_of_mem Prod.fst hg'
      rw [List.map_congr_left hrest]
      simp
    · have hlm : label ∈ gs.map Prod.fst := by
        rcases h with h | h
        · exact absurd h.symm hg
        · exact h
      simp only [insertCommit, List.map_cons, if_neg hg]
      rw [ih hnd.2 hlm]

theorem mem_newLabels_not_mem :
    ∀ (cs : List CommitInfo) (seen : List String) (l : String),
      l ∈ newLabels cs seen → l ∉ seen := by
  intro cs
  induction cs with
  | nil =>
    intro seen l h
    cases h
  | cons c cs ih =>
    intro seen l h
    simp only [newLabels] at h
    by_cases hc : labelOf c ∈ seen
    · rw [if_pos hc] at h
      exact ih seen l h
    · rw [if_neg hc] at h
      rcases List.mem_cons.mp h with rfl | h
      · exact hc
      · intro hl
        exact ih _ l h (List.mem_append_left _ hl)

theorem prGroupsFrom_eq :
    ∀ (cs : List CommitInfo) (i : Nat) (gs : List (String × List Nat)),
      (gs.map Prod.fst).Nodup →
      prGroupsFrom cs i gs
        = gs.map (fun g => (g.1, g.2 ++ idxsFrom cs i g.1))
          ++ (newLabels cs (gs.map Prod.fst)).map (fun l => (l, idxsFrom cs i l)) := by
  intro cs
  induction cs with
  | nil =>
    intro i gs _
    simp [prGroupsFrom, newLabels, idxsFrom]
  | cons c cs ih =>
    intro i gs hnd
    have hskip : ∀ l, labelOf c ≠ l → idxsFrom (c :: cs) i l = idxsFrom cs (i + 1) l := by
      intro l hne
      simp only [idxsFrom]
      rw [if_neg hne]
    have htake : ∀ l, labelOf c = l → idxsFrom (c :: cs) i l = i :: idxsFrom cs (i + 1) l := by
      intro l heq
      simp only [idxsFrom]
      rw [if_pos heq]
    simp only [prGroupsFrom]
    by_cases hmem : labelOf c ∈ gs.map Prod.fst
    · rw [insertCommit_of_mem hnd hmem i]
      have hfst :
          ((gs.map (fun g => if g.1 = labelOf c then (g.1, g.2 ++ [i]) else g)).map Prod.fst)
            = gs.map Prod.fst := by
        rw [List.map_map]
        apply List.map_congr_left
        intro g _
        simp only [Function.comp_apply]
        by_cases hg : g.1 = labelOf c
        · rw [if_pos hg]
        · rw [if_neg hg]
      rw [ih (i + 1) _ (by rw [hfst]; exact hnd), hfst, List.map_map]
      have hleft :
          gs.map ((fun g => (g.1, g.2 ++ idxsFrom cs (i + 1) g.1))
              ∘ (fun g => if g.1 = labelOf c then (g.1, g.2 ++ [i]) else g))
            = gs.map (fun g => (g.1, g.2 ++ idxsFrom (c :: cs) i g.1)) := by
        apply List.map_congr_left
        intro g _
        simp only [Function.comp_apply]
        by_cases hg : g.1 = labelOf c
        · rw [if_pos hg]
          show (g.1, (g.2 ++ [i]) ++ idxsFrom cs (i + 1) g.1)
              = (g.1, g.2 ++ idxsFrom (c :: cs) i g.1)
          rw [htake g.1 hg.symm, List.append_assoc]
          rfl
        · rw [if_neg hg]
          show (g.1, g.2 ++ idxsFrom cs (i + 1) g.1)
              = (g.1, g.2 ++ idxsFrom (c :: cs) i g.1)
          rw [hskip g.1 (fun hh => hg hh.symm)]
      have hright :
          (newLabels cs (gs.map Prod.fst)).map (fun l => (l, idxsFrom cs (i + 1) l))
            = (newLabels cs (gs.map Prod.fst)).map (fun l => (l, idxsFrom (c :: cs) i l)) := by
        apply List.map_congr_left
        intro l hl
        have hne : labelOf c ≠ l := by
          intro hh
          exact mem_newLabels_not_mem cs _ l hl (hh ▸ hmem)
        rw [hskip l hne]
      rw [hleft, hright]
      have hnl : newLabels (c :: cs) (gs.map Prod.fst) = newLabels cs (gs.map Prod.fst) := by
        simp only [newLabels]
        rw [if_pos hmem]
      rw [hnl]
    · rw [insertCommit_of_not_mem hmem i]
      have hfst2 : ((gs ++ [(labelOf c, [i])]).map Prod.fst)
          = gs.map Prod.fst ++ [labelOf c] := by
        simp
      have hnd2 : (((gs ++ [(labelOf c, [i])]).map Prod.fst)).Nodup := by
        rw [hfst2]
        simp [List.nodup_append, hnd, hmem]
      rw [ih (i + 1) _ hnd2, hfst2]
      have hnl : newLabels (c :: cs) (gs.map Prod.fst)
          = labelOf c :: newLabels cs (gs.map Prod.fst ++ [labelOf c]) := by
        simp only [newLabels]
        rw [if_neg hmem]
      rw [hnl, List.map_append]
      have hleft :
          gs.map (fun g => (g.1, g.2 ++ idxsFrom cs (i + 1) g.1))
            = gs.map (fun g => (g.1, g.2 ++ idxsFrom (c :: cs) i g.1)) := by
        apply List.map_congr_left
        intro g hg
        have hne : labelOf c ≠ g.1 := by
          intro hh
          exact hmem (hh ▸ List.mem_map_of_mem Prod.fst hg)
        rw [hskip g.1 hne]
      have hmid :
          ([(labelOf c, [i])].map (fun g => (g.1, g.2 ++ idxsFrom cs (i + 1) g.1)))
            = [(labelOf c, idxsFrom (c :: cs) i (labelOf c))] := by
        simp only [List.map_cons, List.map_nil]
        rw [htake (labelOf c) rfl]
        rfl
      have hright :
          (newLabels cs (gs.map Prod.fst ++ [labelOf c])).map
              (fun l => (l, idxsFrom cs (i + 1) l))
            = (newLabels cs (gs.map Prod.fst ++ [labelOf c])).map
              (fun l => (l, idxsFrom (c :: cs) i l)) := by
        apply List.map_congr_left
        intro l hl
        have hne : labelOf c ≠ l := by
          intro hh
          exact mem_newLabels_not_mem cs _ l hl
            (hh ▸ List.mem_append_right _ (List.mem_cons_self _ _))
        rw [hskip l hne]
      rw [hleft, hmid, hright, List.append_assoc]
      rfl

theorem prGroups_eq (commits : List CommitInfo) :
    prGroups commits = (firstLabels commits).map (fun l => (l, idxsFrom commits 0 l)) := by
  rw [prGroups, prGroupsFrom_eq commits 0 [] (by simp), firstLabels]
  simp

theorem idxsFrom_eq_map (l : String) :
    ∀ (cs : List CommitInfo) (i : Nat),
      idxsFrom cs i l = (labelIdxs cs l).map (fun k => k + i) := by
  intro cs
  induction cs with
  | nil =>
    intro i
    simp [idxsFrom, labelIdxs]
  | cons c cs ih =>
    intro i
    have hfil : labelIdxs (c :: cs) l
        = (if labelOf c = l then [0] else []) ++ (labelIdxs cs l).map Nat.succ := by
      rw [labelIdxs, List.length_cons, List.range_succ_eq_map, List.filter_cons,
        List.filter_map]
      have hcong :
          List.filter
              ((fun j => decide (labelOf ((c :: cs).getD j defCommit) = l)) ∘ Nat.succ)
              (List.range cs.length)
            = List.filter (fun j => decide (labelOf (cs.getD j defCommit) = l))
              (List.range cs.length) := by
        apply List.filter_congr
        intro x _
        simp [Function.comp, List.getD_cons_succ]
      rw [hcong]
      by_cases hc : labelOf c = l
      · simp [hc, labelIdxs]
      · simp [hc, labelIdxs]
    rw [hfil]
    simp only [idxsFrom]
    by_cases hc : labelOf c = l
    · rw [if_pos hc, if_pos hc, ih (i + 1), List.map_append, List.map_map]
      simp only [List.map_cons, List.map_nil]
      rw [show [0 + i] = [i] by simp]
      rw [show List.map ((fun k => k + i) ∘ Nat.succ) (labelIdxs cs l)
          = List.map (fun k => k + (i + 1)) (labelIdxs cs l) from
        List.map_congr_left (fun k _ => by simp [Function.comp]; omega)]
      rfl
    · rw [if_neg hc, if_neg hc, ih (i + 1), List.nil_append, List.map_map]
      apply List.map_congr_left
      intro k _
      simp [Function.comp]
      omega

theorem idxsFrom_zero (commits : List CommitInfo) (l : String) :
    idxsFrom commits 0 l = labelIdxs commits l := by
  rw [idxsFrom_eq_map]
  simp

/-! Reading the commit rows off an entry list. -/

theorem filterMap_pathEntries (commits : List CommitInfo) (ind idx : Nat) :
    (pathEntries commits ind idx).filterMap commitIdxOf? = [] := by
  rw [pathEntries]
  induction List.range (commits.getD idx defCommit).file_diffs.length with
  | nil => rfl
  | cons f fs ih =>
    rw [List.map_cons, List.filterMap_cons]
    exact ih

theorem filterMap_rowBlock (commits : List CommitInfo) (ind : Nat)
    (lbl : Option String) (j : Nat) :
    ((ListEntry.Commit j lbl ind :: pathEntries commits ind j).filterMap commitIdxOf?)
      = [j] := by
  rw [List.filterMap_cons]
  simp only [commitIdxOf?]
  rw [filterMap_pathEntries]

theorem filterMap_groupEntries (commits : List CommitInfo) (ind : Nat) (label : String) :
    ∀ idxs, (groupEntries commits ind label idxs).filterMap commitIdxOf? = idxs := by
  have haux : ∀ rest : List Nat,
      ((rest.flatMap (fun j => ListEntry.Commit j none ind :: pathEntries commits ind j)).filterMap
        commitIdxOf?) = rest := by
    intro rest
    induction rest with
    | nil => rfl
    | cons j rest ih =>
      rw [List.flatMap_cons, List.filterMap_append, filterMap_rowBlock, ih]
      rfl
  intro idxs
  cases idxs with
  | nil => rfl
  | cons idx rest =>
    simp only [groupEntries]
    rw [List.filterMap_append, filterMap_rowBlock, haux]
    rfl

theorem filterMap_entryGroups (commits : List CommitInfo) (ind : Nat) :
    ∀ gs : List (String × List Nat),
      ((gs.flatMap (fun g => groupEntries commits ind g.1 g.2)).filterMap commitIdxOf?)
        = gs.flatMap (fun g => g.2) := by
  intro gs
  induction gs with
  | nil => rfl
  | cons g gs ih =>
    rw [List.flatMap_cons, List.flatMap_cons, List.filterMap_append,
      filterMap_groupEntries, ih]

theorem commitIdxs_entries (commits : List CommitInfo) :
    (entries_from_commits commits).filterMap commitIdxOf?
      = (prGroups commits).flatMap (fun g => g.2) := by
  rw [entries_from_commits, filterMap_entryGroups]

/-- C1: the Commit entries of `entries_from_commits` appear grouped by PR
label, groups in first-appearance order of their labels, commits sharing a
label contiguous and in their original relative order: the sequence of
referenced commit positions is exactly, for each distinct label in
first-appearance order, the increasing list of positions carrying that
label. -/
theorem C1_grouped_commit_order (commits : List CommitInfo) :
    (entries_from_commits commits).filterMap commitIdxOf?
      = (firstLabels commits).flatMap (fun l => labelIdxs commits l) := by
  rw [commitIdxs_entries, prGroups_eq, List.flatMap_map]
  simp only [Function.comp, idxsFrom_zero]

theorem indentOfGroups_prGroups (commits : List CommitInfo) :
    indentOfGroups (prGroups commits) = specIndent commits := by
  rw [prGroups_eq, indentOfGroups, specIndent, List.map_map]
  rfl

theorem entries_eq_spec (commits : List CommitInfo) :
    entries_from_commits commits = specEntries commits := by
  rw [entries_from_commits, indentOfGroups_prGroups, prGroups_eq, List.flatMap_map,
    specEntries]
  simp only [Function.comp, idxsFrom_zero]

theorem mem_groupEntries {commits : List CommitInfo} {ind : Nat} {label : String}
    {idxs : List Nat} {e : ListEntry} (h : e ∈ groupEntries commits ind label idxs) :
    ∃ idx ∈ idxs,
      e = ListEntry.Commit idx (some label) ind
      ∨ e = ListEntry.Commit idx none ind
      ∨ ∃ f, f < (commits.getD idx defCommit).file_diffs.length
          ∧ e = ListEntry.Path idx f ind := by
  cases idxs with
  | nil => cases h
  | cons idx rest =>
    simp only [groupEntries, pathEntries, List.mem_append, List.mem_cons, List.mem_flatMap,
      List.mem_map, List.mem_range] at h
    rcases h with (rfl | ⟨f, hf, rfl⟩) | ⟨j, hj, rfl | ⟨f, hf, rfl⟩⟩
    · exact ⟨idx, List.mem_cons_self _ _, Or.inl rfl⟩
    · exact ⟨idx, List.mem_cons_self _ _, Or.inr (Or.inr ⟨f, hf, rfl⟩)⟩
    · exact ⟨j, List.mem_cons_of_mem _ hj, Or.inr (Or.inl rfl)⟩
    · exact ⟨j, List.mem_cons_of_mem _ hj, Or.inr (Or.inr ⟨f, hf, rfl⟩)⟩

/-- C2: every entry produced by `entries_from_commits` carries one and the
same indent, the maximum of label length plus 1 over the distinct labels;
for an empty input that indent value is 0. -/
theorem C2_global_indent (commits : List CommitInfo) :
    (∀ e ∈ entries_from_commits commits, entryIndent e = specIndent commits)
    ∧ (commits = [] → specIndent commits = 0) := by
  constructor
  · intro e he
    rw [entries_from_commits, indentOfGroups_prGroups, List.mem_flatMap] at he
    obtain ⟨g, _, hg⟩ := he
    obtain ⟨idx, _, h | h | ⟨f, _, h⟩⟩ := mem_groupEntries hg <;> rw [h] <;> rfl
  · intro h
    rw [h]
    rfl

/-- Witness for C2 at the spec's example: labels `#1234` and `#1` give every
entry indent 6. -/
theorem C2_global_indent_witness :
    ListEntry.Commit 0 (some "#1234") 6
        ∈ entries_from_commits
          [⟨"a", "a", "m", some 1234, []⟩, ⟨"b", "b", "m", some 1, []⟩]
    ∧ entryIndent (ListEntry.Commit 0 (some "#1234") 6)
        = specIndent [⟨"a", "a", "m", some 1234, []⟩, ⟨"b", "b", "m", some 1, []⟩]
    ∧ specIndent [⟨"a", "a", "m", some 1234, []⟩, ⟨"b", "b", "m", some 1, []⟩] = 6 :=
  ⟨by decide,
    (C2_global_indent [⟨"a", "a", "m", some 1234, []⟩, ⟨"b", "b", "m", some 1, []⟩]).1
      _ (by decide),
    by decide⟩

/-! Length and in-range facts for the entry list. -/

theorem pathEntries_length (commits : List CommitInfo) (ind idx : Nat) :
    (pathEntries commits ind idx).length
      = (commits.getD idx defCommit).file_diffs.length := by
  simp [pathEntries]

theorem rowBlocks_length (commits : List CommitInfo) (ind : Nat) :
    ∀ rest : List Nat,
      (rest.flatMap (fun j => ListEntry.Commit j none ind :: pathEntries commits ind j)).length
        = (rest.map (fun j => 1 + (commits.getD j defCommit).file_diffs.length)).sum := by
  intro rest
  induction rest with
  | nil => rfl
  | cons j rest ih =>
    rw [List.flatMap_cons, List.length_append, ih, List.map_cons, List.sum_cons,
      List.length_cons, pathEntries_length]
    omega

theorem groupEntries_length (commits : List CommitInfo) (ind : Nat) (label : String) :
    ∀ idxs,
      (groupEntries commits ind label idxs).length
        = (idxs.map (fun j => 1 + (commits.getD j defCommit).file_diffs.length)).sum := by
  intro idxs
  cases idxs with
  | nil => rfl
  | cons idx rest =>
    simp only [groupEntries]
    rw [List.length_append, List.length_cons, pathEntries_length, rowBlocks_length,
      List.map_cons, List.sum_cons]
    omega

theorem insertCommit_flatten_perm (gs : List (String × List Nat)) (label : String)
    (idx : Nat) :
    ((insertCommit gs label idx).flatMap (fun g => g.2)).Perm
      ((gs.flatMap (fun g => g.2)) ++ [idx]) := by
  induction gs with
  | nil => simp [insertCommit]
  | cons g gs ih =>
    simp only [insertCommit]
    by_cases hg : g.1 = label
    · rw [if_pos hg, List.flatMap_cons, List.flatMap_cons]
      show ((g.2 ++ [idx]) ++ gs.flatMap (fun g => g.2)).Perm
          ((g.2 ++ gs.flatMap (fun g => g.2)) ++ [idx])
      rw [List.append_assoc, List.append_assoc]
      exact List.Perm.append_left _ List.perm_append_comm
    · rw [if_neg hg, List.flatMap_cons, List.flatMap_cons, List.append_assoc]
      exact List.Perm.append_left _ ih

theorem prGroupsFrom_flatten_perm :
    ∀ (cs : List CommitInfo) (i : Nat) (gs : List (String × List Nat)),
      ((prGroupsFrom cs i gs).flatMap (fun g => g.2)).Perm
        ((gs.flatMap (fun g => g.2)) ++ List.range' i cs.length) := by
  intro cs
  induction cs with
  | nil =>
    intro i gs
    simp [prGroupsFrom]
  | cons c cs ih =>
    intro i gs
    simp only [prGroupsFrom, List.length_cons]
    refine (ih (i + 1) (insertCommit gs (labelOf c) i)).trans ?_
    refine ((insertCommit_flatten_perm gs (labelOf c) i).append_right _).trans ?_
    rw [List.append_assoc, List.range'_succ]
    exact List.Perm.refl _

theorem prGroups_flatten_perm (commits : List CommitInfo) :
    ((prGroups commits).flatMap (fun g => g.2)).Perm (List.range commits.length) := by
  have h := prGroupsFrom_flatten_perm commits 0 []
  simpa [prGroups, List.range_eq_range'] using h

theorem entries_length_aux (commits : List CommitInfo) (ind : Nat) :
    ∀ gs : List (String × List Nat),
      (gs.flatMap (fun g => groupEntries commits ind g.1 g.2)).length
        = ((gs.flatMap (fun g => g.2)).map
            (fun j => 1 + (commits.getD j defCommit).file_diffs.length)).sum := by
  intro gs
  induction gs with
  | nil => rfl
  | cons g gs ih =>
    rw [List.flatMap_cons, List.length_append, ih, groupEntries_length,
      List.flatMap_cons, List.map_append, List.sum_append]

theorem range_map_fdlen :
    ∀ cs : List CommitInfo,
      (List.range cs.length).map (fun i => (cs.getD i defCommit).file_diffs.length)
        = cs.map (fun c => c.file_diffs.length) := by
  intro cs
  induction cs with
  | nil => rfl
  | cons c cs ih =>
    rw [List.length_cons, List.range_succ_eq_map, List.map_cons, List.map_map,
      List.getD_cons_zero]
    have htail :
        (List.range cs.length).map
            ((fun i => ((c :: cs).getD i defCommit).file_diffs.length) ∘ Nat.succ)
          = (List.range cs.length).map
            (fun i => (cs.getD i defCommit).file_diffs.length) := by
      apply List.map_congr_left
      intro k _
      simp [Function.comp, List.getD_cons_succ]
    rw [htail, ih, List.map_cons]

theorem sum_map_one_add (g : Nat → Nat) :
    ∀ l : List Nat, (l.map (fun j => 1 + g j)).sum = l.length + (l.map g).sum := by
  intro l
  induction l with
  | nil => rfl
  | cons j l ih =>
    rw [List.map_cons, List.sum_cons, ih, List.map_cons, List.sum_cons, List.length_cons]
    omega

/-- C3: the entry list equals the spec-side emission — group by group in
first-appearance order, within a group commit by commit in original order,
each commit row labelled only when first of its group and immediately
followed by one path row per file diff in file order — its length is the
number of commits plus the total number of file diffs, and every entry's
commit and file positions are in range. -/
theorem C3_entry_structure (commits : List CommitInfo) :
    entries_from_commits commits = specEntries commits
    ∧ (entries_from_commits commits).length
        = commits.length + (commits.map (fun c => c.file_diffs.length)).sum
    ∧ ∀ e ∈ entries_from_commits commits, entryInRangeB commits e = true := by
  refine ⟨entries_eq_spec commits, ?_, ?_⟩
  · rw [entries_from_commits, entries_length_aux]
    rw [((prGroups_flatten_perm commits).map
      (fun j => 1 + (commits.getD j defCommit).file_diffs.length)).sum_eq]
    rw [sum_map_one_add, List.length_range, range_map_fdlen]
  · intro e he
    rw [entries_eq_spec, specEntries, List.mem_flatMap] at he
    obtain ⟨l, _, hg⟩ := he
    obtain ⟨idx, hidx, hcase⟩ := mem_groupEntries hg
    have hlt : idx < commits.length := by
      rw [labelIdxs, List.mem_filter] at hidx
      exact List.mem_range.mp hidx.1
    rcases hcase with h | h | ⟨f, hf, h⟩ <;> rw [h]
    · simp [entryInRangeB, hlt]
    · simp [entryInRangeB, hlt]
    · have hf2 := hf
      rw [List.getD_eq_getElem _ _ hlt] at hf2
      simp [entryInRangeB, hlt, hf, hf2]

/-- Witness for C3 at a concrete entry of a concrete commit list. -/
theorem C3_entry_structure_witness :
    entryInRangeB [⟨"a", "a", "m", some 1, [⟨"p", []⟩, ⟨"q", []⟩]⟩]
        (ListEntry.Path 0 1 3) = true :=
  (C3_entry_structure [⟨"a", "a", "m", some 1, [⟨"p", []⟩, ⟨"q", []⟩]⟩]).2.2
    _ (by decide)

/-! Changelog serialization: the fold emits exactly one line per Commit
entry, in order. -/

theorem string_foldl_append :
    ∀ (l : List String) (a : String),
      l.foldl (fun r s => r ++ s) a = a ++ l.foldl (fun r s => r ++ s) "" := by
  intro l
  induction l with
  | nil =>
    intro a
    rw [List.foldl_nil, List.foldl_nil, String.append_empty]
  | cons s l ih =>
    intro a
    rw [List.foldl_cons, List.foldl_cons, ih (a ++ s), ih ("" ++ s), String.empty_append,
      String.append_assoc]

theorem string_join_cons (s : String) (l : List String) :
    String.join (s :: l) = s ++ String.join l := by
  show (s :: l).foldl (fun r t => r ++ t) "" = s ++ l.foldl (fun r t => r ++ t) ""
  rw [List.foldl_cons, string_foldl_append, String.empty_append]

theorem fold_changelog_gen (commits : List CommitInfo) (owner name : String) :
    ∀ (entries : List ListEntry) (acc : String),
      entries.foldl
          (fun content e =>
            match e with
            | ListEntry.Commit commit_idx _ _ =>
              content ++ changelogLine (commits.getD commit_idx defCommit) owner name
            | ListEntry.Path _ _ _ => content) acc
        = acc ++ String.join ((entries.filterMap commitIdxOf?).map
            (fun idx => changelogLine (commits.getD idx defCommit) owner name)) := by
  intro entries
  induction entries with
  | nil =>
    intro acc
    rw [List.foldl_nil, List.filterMap_nil, List.map_nil]
    show acc = acc ++ ""
    rw [String.append_empty]
  | cons e es ih =>
    intro acc
    rw [List.foldl_cons]
    cases e with
    | Commit idx lbl ind =>
      rw [ih]
      simp only [List.filterMap_cons, commitIdxOf?]
      rw [List.map_cons, string_join_cons, String.append_assoc]
    | Path i f ind =>
      rw [ih]
      simp only [List.filterMap_cons, commitIdxOf?]

/-- C4: the changelog serializer emits exactly one Markdown bullet line per
Commit entry, in entry-list order, each of the exact form
`- <message> [<short-id>](https://github.com/<owner>/<name>/commit/<full-id>)`
followed by a newline, and Path entries contribute nothing. -/
theorem C4_changelog_serialization (entries : List ListEntry) (commits : List CommitInfo)
    (owner name : String) :
    format_proposed_changelog entries commits owner name
      = String.join ((entries.filterMap commitIdxOf?).map
          (fun idx => changelogLine (commits.getD idx defCommit) owner name)) := by
  rw [format_proposed_changelog, fold_changelog_gen, String.empty_append]

end CommitsOfInterest
